import Mathlib

/-!
Verification development for the audio core of the spike-bender tool
(`src/main/audio.cpp`).  The numeric routines are embedded shallowly:

* 32-bit float sample values are modelled as exact rationals (`ℚ`);
  irrational library constants (`M_SQRT2`, `M_SQRT1_2`) are embedded as the
  rational value of the corresponding IEEE-754 double constant — no claim
  below depends on their exact rounding;
* `sqrtf` has no exact rational counterpart, so routines that apply it are
  parametrised by an opaque function `sq : ℚ → ℚ`; statements about the
  pre-`sqrtf` accumulators, or ones needing only `sqrtf 0 = 0`, carry that
  as an explicit hypothesis;
* `size_t`/`ssize_t` index arithmetic is modelled on `ℕ`/`ℤ` with the
  wrap-around of a signed-to-unsigned conversion made explicit (`toSizeT`);
* fallible allocation (`Sample::init`, `Sample::copy`, `darray::add`, …)
  is modelled by an oracle `alloc : ℕ → Bool` consulted once per
  allocation site in program order, with failures propagated in the
  `Except` monad exactly where the source returns early.
-/

namespace SpikeBender

/-- Result statuses used by the audio core (`lsp::status_t`, restricted to
the codes the embedded routines can produce). -/
inductive Status where
  | ok
  | noMem
  | badArguments
deriving DecidableEq, Repr

/-- The IEEE-754 double constant `M_SQRT1_2` (nearest double to `√(1/2)`),
used for the adaptive threshold in `find_peaks` (audio.cpp:915). -/
def M_SQRT1_2 : ℚ := 6369051672525773 / 9007199254740992

/-- The IEEE-754 double constant `M_SQRT2` (nearest double to `√2`),
used by `apply_rms_balance` (audio.cpp:563). -/
def M_SQRT2 : ℚ := 6369051672525773 / 4503599627370496

/-- The float constant `PRECISION = 2.5e-8f` (audio.cpp:35), as the exact
decimal it denotes; the float rounding never decides any claim below. -/
def PRECISION : ℚ := 25 / 1000000000

/-- The silence cutoff `1e-6` of `normalize` (audio.cpp:1129), as the exact
decimal it denotes. -/
def EPS_PEAK : ℚ := 1 / 1000000

/-- `interpolate` (audio.cpp:1247-1251): the zero-slope-endpoint cubic
blend `a + (b-a)·x²·(3-2x)` used for all gain trajectories. -/
def interpolate (a b x : ℚ) : ℚ :=
  a + (b - a) * x * x * (3 - 2 * x)

/-- `median_value` (audio.cpp:1163-1192, identical twin at 1203-1232):
the source copies the collection into a pointer array, sorts it ascending
by `gain` with `qsort`, and reads gains at fixed positions of the sorted
order; we embed it on the extracted gain list (sorted lists of the same
multiset of gains agree positionwise, so the sort algorithm is
irrelevant). -/
def median_value (gains : List ℚ) : ℚ :=
  let me := List.insertionSort (fun a b => a ≤ b) gains
  let size := gains.length
  if size < 2 then (if 0 < size then me.getD 0 0 else 0)
  else if size % 2 = 1 then (1 / 2) * (me.getD (size / 2) 0 + me.getD (size / 2 + 1) 0)
  else me.getD (size / 2) 0

/-- `dsp::abs_max` (external lsp-dsp-lib primitive): the maximum absolute
value of a buffer, `0` for an empty one. -/
def abs_max (l : List ℚ) : ℚ := l.foldl (fun acc x => max acc |x|) 0

/-- A multichannel sample buffer is modelled as its list of channels; the
`dspu::Sample` invariant that all channels share one length is used by
taking the head channel's length as the sample length. -/
def sample_length (s : List (List ℚ)) : ℕ := (s.headD []).length

/-- The peak scan of `normalize` (audio.cpp:1121-1126): `lsp_max` fold of
the per-channel `dsp::abs_max` values, starting from `0`. -/
def sample_peak (chs : List (List ℚ)) : ℚ :=
  chs.foldl (fun p c => max p (abs_max c)) 0

/-- `normalize_t` (private/audio.h). -/
inductive normalize_t where
  | NORM_NONE
  | NORM_ABOVE
  | NORM_BELOW
  | NORM_ALWAYS
deriving DecidableEq, Repr

/-- `normalize` (audio.cpp:1116-1152).  The destination is modified in
place by the source; the embedding returns the new channel contents. -/
def normalize (chs : List (List ℚ)) (gain : ℚ) (mode : normalize_t) : List (List ℚ) :=
  if mode = .NORM_NONE then chs
  else
    let peak := sample_peak chs
    if peak < EPS_PEAK then chs
    else if mode = .NORM_BELOW ∧ gain ≤ peak then chs
    else if mode = .NORM_ABOVE ∧ peak ≤ gain then chs
    else chs.map (List.map (fun x => x * (gain / peak)))

/-- Inner loop of `apply_rms_balance` (audio.cpp:560-564): negative source
samples are scaled by the positive gain ratio, non-negative ones by the
negative gain ratio, both amplified by `M_SQRT2`. -/
def apply_rms_balance_channel (sbuf pgain ngain : ℕ → ℚ) (count : ℕ) : List ℚ :=
  (List.range count).map fun j =>
    let s := sbuf j
    if s < 0 then s * pgain j * M_SQRT2 else s * ngain j * M_SQRT2

/-- `apply_rms_balance` (audio.cpp:539-572): channel `i` of the source is
combined with channels `5i+3` (pgain) and `5i+4` (ngain) of the balance
sample, over `count = min(rmsLength, srcLength)` samples. -/
def apply_rms_balance (src rms : List (List ℚ)) : List (List ℚ) :=
  let count := min (sample_length rms) (sample_length src)
  (List.range src.length).map fun i =>
    apply_rms_balance_channel
      (fun k => (src.getD i []).getD k 0)
      (fun k => (rms.getD (5 * i + 3) []).getD k 0)
      (fun k => (rms.getD (5 * i + 4) []).getD k 0)
      count

/-- Zero-extended view of a channel buffer: `src[k]` for `k < length`,
`0` beyond (the tail the estimators append is zero under the identity
weighting the claims fix). -/
def padded (src : List ℚ) : ℕ → ℚ := fun k => src.getD k 0

/-- The per-channel accumulator loop of `estimate_rms`
(audio.cpp:275-286): after `j` iterations, returns the running
accumulator `rms` and the output samples written so far.  At iteration
`j` the source subtracts `sbuf[j-period]²` when `j-period ≥ 0`, adds
`sbuf[j]²`, and stores `sqrtf(max(rms,0) · (1/period))`. -/
def rms_loop (sq : ℚ → ℚ) (s : ℕ → ℚ) (W : ℕ) : ℕ → ℚ × List ℚ
  | 0 => (0, [])
  | j + 1 =>
    let p := rms_loop sq s W j
    let acc0 := if W ≤ j then p.1 - s (j - W) * s (j - W) else p.1
    let acc := acc0 + s j * s j
    (acc, p.2 ++ [sq (max acc 0 * (1 / (W : ℚ)))])

/-- One channel of `estimate_rms` (audio.cpp:204-294): the loop above run
over the whole destination length `dlength = slength + period`. -/
def estimate_rms_channel (sq : ℚ → ℚ) (s : ℕ → ℚ) (dlength W : ℕ) : List ℚ :=
  (rms_loop sq s W dlength).2

/-- State of the `estimate_rms_balance` inner loop (audio.cpp:368-400):
the two running accumulators and the five output streams. -/
structure BalSt where
  prms : ℚ
  nrms : ℚ
  oPrms : List ℚ
  oNrms : List ℚ
  oRavg : List ℚ
  oPgain : List ℚ
  oNgain : List ℚ
deriving DecidableEq, Repr

/-- The per-channel loop of `estimate_rms_balance` (audio.cpp:377-400):
negative samples feed the `nrms` accumulator, non-negative ones `prms`;
the five outputs per position are the two one-sided RMS values, the
geometric mean `ravg`, and the two gain ratios `ravg/prms`, `ravg/nrms`.
The gain divisions are the source's float divisions (audio.cpp:398-399),
taken as an opaque parameter `dv`: where the divisor is nonzero `dv`
agrees with exact division (a hypothesis of the theorems that use it),
and where the divisor is zero the float result is `NaN`, which `ℚ`
cannot represent — `dv` is unconstrained there, so nothing is provable
about those positions, exactly as it should be. -/
def balance_loop (sq : ℚ → ℚ) (dv : ℚ → ℚ → ℚ) (s : ℕ → ℚ) (W : ℕ) : ℕ → BalSt
  | 0 => ⟨0, 0, [], [], [], [], []⟩
  | j + 1 =>
    let st := balance_loop sq dv s W j
    let sub :=
      if W ≤ j then
        let sp := s (j - W)
        if sp < 0 then (st.prms, st.nrms - sp * sp) else (st.prms - sp * sp, st.nrms)
      else (st.prms, st.nrms)
    let sc := s j
    let acc := if sc < 0 then (sub.1, sub.2 + sc * sc) else (sub.1 + sc * sc, sub.2)
    let op := sq (max acc.1 0 * (1 / (W : ℚ)))
    let om := sq (max acc.2 0 * (1 / (W : ℚ)))
    let orv := sq (op * om)
    ⟨acc.1, acc.2, st.oPrms ++ [op], st.oNrms ++ [om], st.oRavg ++ [orv],
      st.oPgain ++ [dv orv op], st.oNgain ++ [dv orv om]⟩

/-- One channel of `estimate_rms_balance` (audio.cpp:296-408). -/
def estimate_rms_balance_channel (sq : ℚ → ℚ) (dv : ℚ → ℚ → ℚ) (s : ℕ → ℚ)
    (dlength W : ℕ) : BalSt :=
  balance_loop sq dv s W dlength

/-- `range_t` (private/audio.h): `first`/`last`/`peak` are `size_t` in the
source, `gain` a float. -/
structure Region where
  first : ℕ
  last : ℕ
  peak : ℕ
  gain : ℚ
deriving DecidableEq, Repr

instance : Inhabited Region := ⟨⟨0, 0, 0, 0⟩⟩

/-- The value a C `size_t` object receives when assigned an `ssize_t`:
reduction modulo `2^64` (e.g. `-1` becomes `2^64 - 1`). -/
def toSizeT (z : ℤ) : ℕ := (z % (2 ^ 64)).toNat

/-- `size_t` subtraction (wraps modulo `2^64` when the subtrahend is
larger). -/
def subSizeT (a b : ℕ) : ℕ := toSizeT ((a : ℤ) - (b : ℤ))

/-- `dsp::abs_max_index` (external lsp-dsp-lib primitive): the relative
index of the first sample of maximal absolute value among
`buf[off..off+n)`.  Reached only by the retroactive-split branch of
`find_peaks`; no theorem below depends on its value. -/
def abs_max_index (buf : ℕ → ℚ) (off n : ℕ) : ℕ :=
  (List.range n).foldl
    (fun best k => if |buf (off + best)| < |buf (off + k)| then k else best) 0

/-- One fallible allocation (`lltl::darray::add`, `Sample::init`,
`Sample::copy`, …): attempt `k` succeeds iff `alloc k`, and on success the
allocation counter advances. -/
def tryAlloc (alloc : ℕ → Bool) (k : ℕ) : Except Status ℕ :=
  if alloc k then .ok (k + 1) else .error .noMem

/-- Scan state of `find_peaks` (audio.cpp:874-962): the already-closed
regions (`done`), the open region `curr` (always the last element of the
source's `out` array), and the scalar loop state.  `lastFlip` is the
source's `ssize_t last_flip`, initially `-1`. -/
structure FPSt where
  done : List Region
  curr : Region
  sPrev : ℚ
  dPrev : ℚ
  numFlips : ℤ
  lastFlip : ℤ
deriving DecidableEq, Repr

/-- One iteration of the `find_peaks` scan (audio.cpp:890-962), with the
two possible `out.add()` failures of the body threaded through `Except`.
The second component of the state is the allocation counter. -/
def find_peaks_step (alloc : ℕ → Bool) (buf rms : ℕ → ℚ) (threshold : ℚ)
    (p : FPSt × ℕ) (i : ℕ) : Except Status (FPSt × ℕ) :=
  let st0 := p.1
  let a := p.2
  let s := buf i
  let d := buf i - st0.sPrev
  -- derivative sign flipped: local extremum at i-1 (audio.cpp:896-906)
  let st :=
    if (st0.dPrev < 0 ∧ 0 ≤ d) ∨ (0 < st0.dPrev ∧ d ≤ 0) then
      let gain := |buf (i - 1)|
      if st0.curr.gain < gain then
        { st0 with curr := { st0.curr with gain := gain, peak := i - 1 } }
      else st0
    else st0
  -- sample sign flipped: zero crossing (audio.cpp:909-957)
  if (st.sPrev < 0 ∧ 0 ≤ s) ∨ (0 < st.sPrev ∧ s ≤ 0) then
    let nf := st.numFlips + 1
    let thresh := max (rms st.curr.peak * M_SQRT1_2) threshold
    if thresh ≤ st.curr.gain then
      -- more than one flip since the last cut: split off the span up to
      -- the previous flip first (audio.cpp:920-937)
      let splitRes : Except Status (FPSt × ℕ) :=
        if 1 < nf then
          match tryAlloc alloc a with
          | .error e => .error e
          | .ok a1 =>
            let lf := toSizeT st.lastFlip
            let cpeak := st.curr.first
              + abs_max_index buf st.curr.first (subSizeT lf st.curr.first)
            let closed : Region :=
              { first := st.curr.first, last := lf, peak := cpeak, gain := |buf cpeak| }
            .ok ({ st with
                     done := st.done ++ [closed],
                     curr := { first := lf, last := lf,
                               peak := st.curr.peak, gain := st.curr.gain } }, a1)
        else .ok (st, a)
      match splitRes with
      | .error e => .error e
      | .ok (st1, a1) =>
        -- close the current region at i and open a fresh one whose
        -- `first` is the (not yet updated) last flip (audio.cpp:939-952)
        match tryAlloc alloc a1 with
        | .error e => .error e
        | .ok a2 =>
          let closed := { st1.curr with last := i }
          let lf0 := toSizeT st1.lastFlip
          .ok ({ st1 with
                   done := st1.done ++ [closed],
                   curr := { first := lf0, last := lf0, peak := lf0, gain := 0 },
                   numFlips := 0, lastFlip := (i : ℤ),
                   sPrev := s, dPrev := d }, a2)
    else
      .ok ({ st with numFlips := nf, lastFlip := (i : ℤ), sPrev := s, dPrev := d }, a)
  else
    .ok ({ st with sPrev := s, dPrev := d }, a)

/-- `find_peaks` (audio.cpp:874-974): initial `out.add()`, the scan, and
the trailing-region fixup (`pop` the open region if its `first` is past
the buffer, else close it at `count`). -/
def find_peaks_core (alloc : ℕ → Bool) (buf rms : ℕ → ℚ) (threshold : ℚ) (count : ℕ) :
    Except Status (List Region) :=
  match tryAlloc alloc 0 with
  | .error e => .error e
  | .ok a0 =>
    let init : FPSt :=
      { done := [], curr := ⟨0, 0, 0, 0⟩, sPrev := 0, dPrev := 0,
        numFlips := 0, lastFlip := -1 }
    match (List.range count).foldlM (find_peaks_step alloc buf rms threshold) (init, a0) with
    | .error e => .error e
    | .ok (st, _) =>
      if count ≤ st.curr.first then .ok st.done
      else .ok (st.done ++ [{ st.curr with last := count }])

/-- The caller-facing `find_peaks`: on success the fresh list is swapped
into `ranges` (audio.cpp:971); on failure the early `return` leaves
`ranges` untouched. -/
def find_peaks (alloc : ℕ → Bool) (buf rms : ℕ → ℚ) (threshold : ℚ) (count : ℕ)
    (ranges : List Region) : Status × List Region :=
  match find_peaks_core alloc buf rms threshold count with
  | .error e => (e, ranges)
  | .ok out => (.ok, out)

/-- The exact tiling property claimed for `find_peaks` output: a nonempty
ascending chain of regions `first < last` with `last = next.first`,
starting at `0` and ending at `count`. -/
def tiles (rs : List Region) (count : ℕ) : Prop :=
  rs ≠ [] ∧ (rs.headD default).first = 0 ∧ (rs.getLast?.getD default).last = count ∧
  (∀ r ∈ rs, r.first < r.last) ∧ List.Chain' (fun r r2 => r.last = r2.first) rs

instance (rs : List Region) (count : ℕ) : Decidable (tiles rs count) := by
  unfold tiles
  infer_instance

/-- `peak_t` (private/audio.h). -/
structure Peak where
  index : ℕ
  gain : ℚ
deriving DecidableEq, Repr

instance : Inhabited Peak := ⟨⟨0, 0⟩⟩

/-- State of `smash_amplitude`'s detection pass (audio.cpp:1536-1599):
the current block-dominant positive and negative candidates (`pos`,
`neg`, with their sentinel gains `-1` and `1`), the collected
block-dominant peak lists, and the list of every true local extremum. -/
structure DetSt where
  pos : Peak
  neg : Peak
  pPeaks : List Peak
  nPeaks : List Peak
  peaks : List Peak
deriving DecidableEq, Repr

/-- Initial detection state (audio.cpp:1538-1541). -/
def det_init : DetSt := ⟨⟨0, -1⟩, ⟨0, 1⟩, [], [], []⟩

/-- Block-boundary flush of `smash_amplitude`'s pass 1
(audio.cpp:1549-1567): at `j % step == 0` the block-dominant candidates
are appended (when their sentinel gains were overwritten) and reset. -/
def smash_flush (step : ℕ) (st : DetSt) (j : ℕ) : DetSt :=
  if j % step = 0 then
    { st with
      pPeaks := if 0 ≤ st.pos.gain then st.pPeaks ++ [st.pos] else st.pPeaks,
      nPeaks := if st.neg.gain ≤ 0 then st.nPeaks ++ [st.neg] else st.nPeaks,
      pos := ⟨0, -1⟩, neg := ⟨0, 1⟩ }
  else st

/-- The three-point slope classification of position `j`
(audio.cpp:1569-1596): a positive local maximum or a negative local
minimum is appended to `peaks` and updates its block candidate.  The
look-ahead `s_next = (j < m) ? in[j+1] : 0.0f` reads `in[m]` at
`j = m-1` in the source (the guard is always true inside the loop — see
the C9 theorem below); the embedding models that out-of-bounds read as
`0`, which is what `padded` returns at `m`. -/
def smash_classify (s : ℕ → ℚ) (m : ℕ) (st1 : DetSt) (j : ℕ) : DetSt :=
  let sj := s j
  let sPrev := if 0 < j then s (j - 1) else 0
  let sNext := if j < m then s (j + 1) else 0
  let dsPrev := sj - sPrev
  let dsNext := sNext - sj
  if dsNext < 0 ∧ 0 ≤ dsPrev ∧ 0 < sj then
    { st1 with peaks := st1.peaks ++ [⟨j, sj⟩],
               pos := if st1.pos.gain < sj then ⟨j, sj⟩ else st1.pos }
  else if 0 < dsNext ∧ dsPrev ≤ 0 ∧ sj < 0 then
    { st1 with peaks := st1.peaks ++ [⟨j, sj⟩],
               neg := if sj < st1.neg.gain then ⟨j, sj⟩ else st1.neg }
  else st1

/-- One iteration `j` of `smash_amplitude`'s pass 1 (audio.cpp:1547-1599):
the block-boundary flush followed by the slope classification. -/
def smash_detect_step (step : ℕ) (s : ℕ → ℚ) (m : ℕ) (st : DetSt) (j : ℕ) : DetSt :=
  smash_classify s m (smash_flush step st j) j

/-- Pass 1 of `smash_amplitude` over one channel. -/
def smash_detect (step : ℕ) (ch : List ℚ) : DetSt :=
  (List.range ch.length).foldl (smash_detect_step step (padded ch) ch.length) det_init

/-- Median of the block-dominant positive peaks (audio.cpp:1602-1605). -/
def smash_pavg (step : ℕ) (ch : List ℚ) : ℚ :=
  median_value ((smash_detect step ch).pPeaks.map Peak.gain)

/-- Median of the block-dominant negative peaks (audio.cpp:1606-1607). -/
def smash_navg (step : ℕ) (ch : List ℚ) : ℚ :=
  median_value ((smash_detect step ch).nPeaks.map Peak.gain)

/-- The matching-polarity median for a peak (audio.cpp:1622). -/
def smash_avg (step : ℕ) (ch : List ℚ) (p : Peak) : ℚ :=
  if 0 < p.gain then smash_pavg step ch else smash_navg step ch

/-- The target multiplier for one peak in pass 3 (audio.cpp:1622-1623):
`(median · threshold) / gain` when `|gain|` exceeds
`threshold · |median|`, else `1`. -/
def smash_egain (threshold pAvg nAvg : ℚ) (p : Peak) : ℚ :=
  let avg := if 0 < p.gain then pAvg else nAvg
  if threshold * |avg| < |p.gain| then avg * threshold / p.gain else 1

/-- Pass 3 of `smash_amplitude` (audio.cpp:1616-1631): walk the peaks in
order; between the previous control index `idx` (multiplier `gain`) and
the current peak, multiply every sample by the cubic blend toward the
peak's target multiplier.  (`delta = 1/(p.index - idx)`; when the span is
empty the loop body never runs, so the rational convention `1/0 = 0` is
never observed.) -/
def smash_apply (threshold pAvg nAvg : ℚ) : List Peak → ℕ → ℚ → (ℕ → ℚ) → (ℕ → ℚ)
  | [], _idx, _gain, buf => buf
  | p :: ps, idx, gain, buf =>
    let egain := smash_egain threshold pAvg nAvg p
    let delta : ℚ := 1 / ((p.index - idx : ℕ) : ℚ)
    smash_apply threshold pAvg nAvg ps p.index egain
      (fun k => if idx ≤ k ∧ k < p.index
        then buf k * interpolate gain egain (((k - idx : ℕ) : ℚ) * delta)
        else buf k)

/-- One channel of `smash_amplitude` (audio.cpp:1520-1638): detection,
medians, the synthetic terminal peak `(length, 1)` (audio.cpp:1609-1613),
and the gain walk starting from `idx = 0`, `gain = 1`. -/
def smash_channel (rate : ℕ) (threshold : ℚ) (ch : List ℚ) : List ℚ :=
  let step := rate / 100
  let res := smash_apply threshold (smash_pavg step ch) (smash_navg step ch)
    ((smash_detect step ch).peaks ++ [⟨ch.length, 1⟩]) 0 1 (padded ch)
  (List.range ch.length).map res

/-- `smash_amplitude` over all channels of a sample. -/
def smash_amplitude (rate : ℕ) (threshold : ℚ) (src : List (List ℚ)) : List (List ℚ) :=
  src.map (smash_channel rate threshold)

/-- The look-ahead read `s_next = (j < m) ? in[j+1] : 0.0f` of
`smash_amplitude`'s extremum scan (audio.cpp:1572), with the buffer
access returned as an `Option`: `none` marks a read past the end of the
channel. -/
def smash_next_read (ch : List ℚ) (j : ℕ) : Option ℚ :=
  if j < ch.length then ch[j + 1]? else some 0

/-- Invariant of the detection pass after scanning positions `< j`:
the collected extrema have strictly increasing indices below `j`, and
each records the (nonzero) sample value at its index. -/
def detect_inv (s : ℕ → ℚ) (j : ℕ) (st : DetSt) : Prop :=
  st.peaks.Pairwise (fun a b => a.index < b.index) ∧
  ∀ p ∈ st.peaks, p.index < j ∧ p.gain = s p.index ∧ p.gain ≠ 0

/-- The per-channel accumulator loop of `estimate_average`
(audio.cpp:741-752): plain values instead of squares, no clamp, no root;
output `avg · (1/period)`. -/
def avg_loop (s : ℕ → ℚ) (W : ℕ) : ℕ → ℚ × List ℚ
  | 0 => (0, [])
  | j + 1 =>
    let p := avg_loop s W j
    let acc0 := if W ≤ j then p.1 - s (j - W) else p.1
    let acc := acc0 + s j
    (acc, p.2 ++ [acc * (1 / (W : ℚ))])

/-- One channel of `estimate_average` (audio.cpp:670-760). -/
def estimate_average_channel (s : ℕ → ℚ) (dlength W : ℕ) : List ℚ :=
  (avg_loop s W dlength).2

/-- The one-sided rectification of `estimate_partial_rms`
(audio.cpp:654, 657): `max(x,0)` for the positive side, `-min(x,0)` for
the negative one. -/
def partial_rect (positive : Bool) (x : ℚ) : ℚ :=
  if positive then max x 0 else -(min x 0)

/-- The per-channel accumulator loop of `estimate_partial_rms`
(audio.cpp:645-660). -/
def partial_rms_loop (sq : ℚ → ℚ) (s : ℕ → ℚ) (positive : Bool) (W : ℕ) : ℕ → ℚ × List ℚ
  | 0 => (0, [])
  | j + 1 =>
    let p := partial_rms_loop sq s positive W j
    let sp := partial_rect positive (s (j - W))
    let acc0 := if W ≤ j then p.1 - sp * sp else p.1
    let sc := partial_rect positive (s j)
    let acc := acc0 + sc * sc
    (acc, p.2 ++ [sq (max acc 0 * (1 / (W : ℚ)))])

/-- One channel of `estimate_partial_rms` (audio.cpp:574-668). -/
def estimate_partial_rms_channel (sq : ℚ → ℚ) (s : ℕ → ℚ) (positive : Bool)
    (dlength W : ℕ) : List ℚ :=
  (partial_rms_loop sq s positive W dlength).2

/-- `dsp::min_index` (external lsp-dsp-lib primitive): relative index of
the first minimum of `t[off..off+n)`; the exact tie-breaking is
irrelevant to every claim below. -/
def min_index (t : ℕ → ℚ) (off n : ℕ) : ℕ :=
  (List.range n).foldl (fun best k => if t (off + k) < t (off + best) then k else best) 0

/-- `dsp::max_index` (external lsp-dsp-lib primitive). -/
def max_index (t : ℕ → ℚ) (off n : ℕ) : ℕ :=
  (List.range n).foldl (fun best k => if t (off + best) < t (off + k) then k else best) 0

/-- Step 1 of `estimate_envelope` (audio.cpp:508-519): per block of
`period` samples, record the block minimum (only if negative) in the
negative track and the block maximum (only if positive) in the positive
track; all other positions stay `0` (the freshly initialised output). -/
def env_block_peaks (t : ℕ → ℚ) (dlength period : ℕ) : (ℕ → ℚ) × (ℕ → ℚ) :=
  (List.range (dlength / period)).foldl
    (fun acc b =>
      let j := b * period
      let imin := min_index t j period
      let imax := max_index t j period
      let mn := t (j + imin)
      let mx := t (j + imax)
      (fun k => if 0 < mx ∧ k = j + imax then mx else acc.1 k,
       fun k => if mn < 0 ∧ k = j + imin then mn else acc.2 k))
    (fun _ => 0, fun _ => 0)

/-- `approximate_envelope` (audio.cpp:410-428), with the external
`dsp::smooth_cubic_linear` kernel as an opaque parameter
(`smooth a b n k` is the value the kernel writes at relative position
`k` of an `n`-sample fill from `a` toward `b`). -/
def approximate_envelope (smooth : ℚ → ℚ → ℕ → ℕ → ℚ) (src : ℕ → ℚ) (count : ℕ) :
    ℕ → ℚ :=
  let r := (List.range count).foldl
    (fun (acc : ℕ × (ℕ → ℚ)) i =>
      let s := src i
      if s = 0 ∨ i ≤ acc.1 then acc
      else (i, fun k => if acc.1 ≤ k ∧ k < i
        then smooth (src acc.1) s (i - acc.1) (k - acc.1) else acc.2 k))
    (0, fun _ => 0)
  if r.1 < count then
    fun k => if r.1 ≤ k ∧ k < r.1 + (count - r.1 - 1)
      then smooth (src r.1) (src (count - 1)) (count - r.1 - 1) (k - r.1) else r.2 k
  else r.2

/-- The six output channels `estimate_envelope` produces per input
channel (audio.cpp:489-530): sparse peak tracks, their smoothed
envelopes, the midpoint `delta`, and the de-ramped `result`
(`src - delta` over `min(dlength, slength)` samples, `0` beyond). -/
def estimate_envelope_channels (smooth : ℚ → ℚ → ℕ → ℕ → ℚ) (filt : List ℚ → ℕ → ℚ)
    (src : List (List ℚ)) (period : ℕ) : List (List ℚ) :=
  let slength := sample_length src
  let dlength := slength + (period - slength % period) % period
  src.flatMap (fun c =>
    let t := filt c
    let bp := env_block_peaks t dlength period
    let ps := approximate_envelope smooth bp.1 dlength
    let ns := approximate_envelope smooth bp.2 dlength
    let delta := fun k => (ps k + ns k) * (1 / 2)
    let result := fun k => if k < min dlength slength then padded c k - delta k else 0
    [(List.range dlength).map bp.1, (List.range dlength).map bp.2,
     (List.range dlength).map ps, (List.range dlength).map ns,
     (List.range dlength).map delta, (List.range dlength).map result])

/-- The per-channel body of `calc_deviation` (audio.cpp:779-791):
rectify, then clamp the difference to the reference RMS over the
intersection window `[max(offset,0), min(rmsLength+offset, outLength))`. -/
def calc_deviation_channels (src rms : List (List ℚ)) (offset : ℤ) : List (List ℚ) :=
  (List.range src.length).map (fun i =>
    let c := src.getD i []
    let r := rms.getD i []
    let head : ℤ := max offset 0
    let tail : ℤ := min ((sample_length rms : ℤ) + offset) ((c.length : ℤ))
    (List.range c.length).map (fun k =>
      if head ≤ Int.ofNat k ∧ Int.ofNat k < tail
      then max (|c.getD k 0| - r.getD (Int.ofNat k - offset).toNat 0) 0
      else |c.getD k 0|))

/-- The per-channel body of `calc_gain_adjust` (audio.cpp:817-831). -/
def calc_gain_adjust_channels (ref src : List (List ℚ)) : List (List ℚ) :=
  let count := min (sample_length ref) (sample_length src)
  (List.range src.length).map (fun i =>
    (List.range count).map (fun k =>
      let aref := |(ref.getD i []).getD k 0|
      let asrc := |(src.getD i []).getD k 0|
      if asrc ≤ PRECISION then 1 else aref / asrc))

/-- The per-channel body of the sample-wise `apply_gain`
(audio.cpp:857-865): pointwise product over
`min(gainLength, srcLength)`. -/
def apply_gain_channels (src gain : List (List ℚ)) : List (List ℚ) :=
  let count := min (sample_length gain) (sample_length src)
  (List.range src.length).map (fun i =>
    (List.range count).map (fun k =>
      (src.getD i []).getD k 0 * (gain.getD i []).getD k 0))

/-- `dsp::abs_max` over a function view of a buffer span. -/
def abs_max_range (b : ℕ → ℚ) (off n : ℕ) : ℚ :=
  (List.range n).foldl (fun acc k => max acc |b (off + k)|) 0

/-- The region-wise `apply_gain` (audio.cpp:976-994): every region whose
recorded peak gain reaches the threshold is divided by the absolute
maximum over its span (`size_t` span length, wrapping like the source
would). -/
def apply_gain_ranges (buf : ℕ → ℚ) (ranges : List Region) (threshold : ℚ) : ℕ → ℚ :=
  ranges.foldl
    (fun b r =>
      if r.gain < threshold then b
      else
        let n := subSizeT r.last r.first
        let g := abs_max_range b r.first n
        fun k => if r.first ≤ k ∧ k < r.first + n then b k * (1 / g) else b k)
    buf

/-- The per-channel body of `adjust_gain` (audio.cpp:1033-1101), with the
external `dspu::DynamicProcessor` batch gain computation as the opaque
parameter `dpGain` (per-channel threshold and envelope slice to gain
buffer); returns the output channels and the gain channels. -/
def adjust_gain_channels (dpGain : ℚ → List ℚ → List ℚ) (src env : List (List ℚ))
    (thresh : List ℚ) : List (List ℚ) × List (List ℚ) :=
  let count := min (sample_length env) (sample_length src)
  let gains := (List.range src.length).map
    (fun i => dpGain (thresh.getD i 0) ((env.getD i []).take count))
  let outs := (List.range src.length).map (fun i =>
    (List.range count).map (fun k =>
      (gains.getD i []).getD k 0 * (src.getD i []).getD k 0))
  (outs, gains)

/-- `estimate_rms` as an operation on its destination (audio.cpp:204-294):
filter construction and the two buffer allocations may fail before
anything is computed; only the final `swap` publishes the result. -/
def estimate_rms_op (alloc : ℕ → Bool) (filt : List ℚ → ℕ → ℚ) (sq : ℚ → ℚ)
    (dst src : List (List ℚ)) (W : ℕ) : Status × List (List ℚ) :=
  if ¬ alloc 0 then (.noMem, dst)
  else if ¬ alloc 1 then (.noMem, dst)
  else if ¬ alloc 2 then (.noMem, dst)
  else (.ok, src.map (fun c => estimate_rms_channel sq (filt c) (sample_length src + W) W))

/-- `estimate_average` as an operation (audio.cpp:670-760). -/
def estimate_average_op (alloc : ℕ → Bool) (filt : List ℚ → ℕ → ℚ)
    (dst src : List (List ℚ)) (W : ℕ) : Status × List (List ℚ) :=
  if ¬ alloc 0 then (.noMem, dst)
  else if ¬ alloc 1 then (.noMem, dst)
  else if ¬ alloc 2 then (.noMem, dst)
  else (.ok, src.map (fun c => estimate_average_channel (filt c) (sample_length src + W) W))

/-- `estimate_partial_rms` as an operation (audio.cpp:574-668). -/
def estimate_partial_rms_op (alloc : ℕ → Bool) (filt : List ℚ → ℕ → ℚ) (sq : ℚ → ℚ)
    (dst src : List (List ℚ)) (W : ℕ) (positive : Bool) : Status × List (List ℚ) :=
  if ¬ alloc 0 then (.noMem, dst)
  else if ¬ alloc 1 then (.noMem, dst)
  else if ¬ alloc 2 then (.noMem, dst)
  else (.ok, src.map (fun c =>
    estimate_partial_rms_channel sq (filt c) positive (sample_length src + W) W))

/-- `estimate_rms_balance` as an operation (audio.cpp:296-408): five
output channels per source channel. -/
def estimate_rms_balance_op (alloc : ℕ → Bool) (filt : List ℚ → ℕ → ℚ) (sq : ℚ → ℚ)
    (dv : ℚ → ℚ → ℚ) (dst src : List (List ℚ)) (W : ℕ) : Status × List (List ℚ) :=
  if ¬ alloc 0 then (.noMem, dst)
  else if ¬ alloc 1 then (.noMem, dst)
  else if ¬ alloc 2 then (.noMem, dst)
  else (.ok, src.flatMap (fun c =>
    let b := estimate_rms_balance_channel sq dv (filt c) (sample_length src + W) W
    [b.oPrms, b.oNrms, b.oRavg, b.oPgain, b.oNgain]))

/-- `estimate_envelope` as an operation (audio.cpp:430-537). -/
def estimate_envelope_op (alloc : ℕ → Bool) (smooth : ℚ → ℚ → ℕ → ℕ → ℚ)
    (filt : List ℚ → ℕ → ℚ) (dst src : List (List ℚ)) (period : ℕ) :
    Status × List (List ℚ) :=
  if ¬ alloc 0 then (.noMem, dst)
  else if ¬ alloc 1 then (.noMem, dst)
  else if ¬ alloc 2 then (.noMem, dst)
  else (.ok, estimate_envelope_channels smooth filt src period)

/-- `calc_deviation` as an operation (audio.cpp:762-798): channel-count
mismatch and the `out.copy` allocation fail before any write. -/
def calc_deviation_op (alloc : ℕ → Bool) (dst src rms : List (List ℚ)) (offset : ℤ) :
    Status × List (List ℚ) :=
  if rms.length ≠ src.length then (.badArguments, dst)
  else if ¬ alloc 0 then (.noMem, dst)
  else (.ok, calc_deviation_channels src rms offset)

/-- `calc_gain_adjust` as an operation (audio.cpp:800-838). -/
def calc_gain_adjust_op (alloc : ℕ → Bool) (dst ref src : List (List ℚ)) :
    Status × List (List ℚ) :=
  if ref.length ≠ src.length then (.badArguments, dst)
  else if ¬ alloc 0 then (.noMem, dst)
  else (.ok, calc_gain_adjust_channels ref src)

/-- The sample-wise `apply_gain` as an operation (audio.cpp:840-872). -/
def apply_gain_op (alloc : ℕ → Bool) (dst src gain : List (List ℚ)) :
    Status × List (List ℚ) :=
  if src.length ≠ gain.length then (.badArguments, dst)
  else if ¬ alloc 0 then (.noMem, dst)
  else (.ok, apply_gain_channels src gain)

/-- The region-wise `apply_gain` as an operation (audio.cpp:976-994): it
performs no allocation and always returns `STATUS_OK` (it mutates the
buffer in place; the operation cannot fail). -/
def apply_gain_ranges_op (buf : ℕ → ℚ) (ranges : List Region) (threshold : ℚ)
    (count : ℕ) : Status × List ℚ :=
  (.ok, (List.range count).map (apply_gain_ranges buf ranges threshold))

/-- `adjust_gain` as an operation on its two destinations
(audio.cpp:996-1114): mismatch and the two allocations fail before any
computation; both destinations are published only on success. -/
def adjust_gain_op (alloc : ℕ → Bool) (dpGain : ℚ → List ℚ → List ℚ)
    (dst gain src env : List (List ℚ)) (thresh : List ℚ) :
    Status × List (List ℚ) × List (List ℚ) :=
  if src.length ≠ env.length then (.badArguments, dst, gain)
  else if ¬ alloc 0 then (.noMem, dst, gain)
  else if ¬ alloc 1 then (.noMem, dst, gain)
  else
    let r := adjust_gain_channels dpGain src env thresh
    (.ok, r.1, r.2)

/-- Block-boundary flush with its two fallible `lltl::darray::append`
calls (audio.cpp:1552-1561): an allocation attempt happens exactly when
the source appends; the state transition is `smash_flush`. -/
def smash_flush_e (alloc : ℕ → Bool) (step : ℕ) (p : DetSt × ℕ) (j : ℕ) :
    Except Status (DetSt × ℕ) :=
  let st := p.1
  let a := p.2
  if j % step = 0 then
    match (if 0 ≤ st.pos.gain then tryAlloc alloc a else .ok a) with
    | .error e => .error e
    | .ok a1 =>
      match (if st.neg.gain ≤ 0 then tryAlloc alloc a1 else .ok a1) with
      | .error e => .error e
      | .ok a2 => .ok (smash_flush step st j, a2)
  else .ok (smash_flush step st j, a)

/-- Slope classification with its fallible `peaks.add`
(audio.cpp:1579-1580, 1590-1591): an allocation attempt happens exactly
when a peak is appended; the state transition is `smash_classify`. -/
def smash_classify_e (alloc : ℕ → Bool) (s : ℕ → ℚ) (m : ℕ) (p : DetSt × ℕ) (j : ℕ) :
    Except Status (DetSt × ℕ) :=
  let st1 := p.1
  let a := p.2
  let sj := s j
  let sPrev := if 0 < j then s (j - 1) else 0
  let sNext := if j < m then s (j + 1) else 0
  let dsPrev := sj - sPrev
  let dsNext := sNext - sj
  if (dsNext < 0 ∧ 0 ≤ dsPrev ∧ 0 < sj) ∨ (0 < dsNext ∧ dsPrev ≤ 0 ∧ sj < 0) then
    match tryAlloc alloc a with
    | .error e => .error e
    | .ok a1 => .ok (smash_classify s m st1 j, a1)
  else .ok (smash_classify s m st1 j, a)

/-- One fallible iteration of `smash_amplitude`'s pass 1. -/
def smash_detect_step_e (alloc : ℕ → Bool) (step : ℕ) (s : ℕ → ℚ) (m : ℕ)
    (p : DetSt × ℕ) (j : ℕ) : Except Status (DetSt × ℕ) :=
  match smash_flush_e alloc step p j with
  | .error e => .error e
  | .ok p1 => smash_classify_e alloc s m p1 j

/-- One channel of `smash_amplitude` with its fallible allocations: the
detection loop, the two `median_value` calls (whose internal
`reserve`/`add` failures collapse to one oracle consultation each,
audio.cpp:1604-1607), the terminal `peaks.add` (audio.cpp:1612), and the
gain walk (no allocations). -/
def smash_channel_e (alloc : ℕ → Bool) (a0 : ℕ) (rate : ℕ) (threshold : ℚ)
    (ch : List ℚ) : Except Status (List ℚ × ℕ) :=
  let step := rate / 100
  match (List.range ch.length).foldlM
      (smash_detect_step_e alloc step (padded ch) ch.length) (det_init, a0) with
  | .error e => .error e
  | .ok (st, a1) =>
    match tryAlloc alloc a1 with
    | .error e => .error e
    | .ok a2 =>
      match tryAlloc alloc a2 with
      | .error e => .error e
      | .ok a3 =>
        match tryAlloc alloc a3 with
        | .error e => .error e
        | .ok a4 =>
          .ok ((List.range ch.length).map
            (smash_apply threshold (median_value (st.pPeaks.map Peak.gain))
              (median_value (st.nPeaks.map Peak.gain))
              (st.peaks ++ [⟨ch.length, 1⟩]) 0 1 (padded ch)), a4)

/-- All channels of `smash_amplitude`, threading the allocation
counter. -/
def smash_channels_e (alloc : ℕ → Bool) (rate : ℕ) (threshold : ℚ) :
    List (List ℚ) → ℕ → Except Status (List (List ℚ) × ℕ)
  | [], a => .ok ([], a)
  | c :: cs, a =>
    match smash_channel_e alloc a rate threshold c with
    | .error e => .error e
    | .ok (r, a1) =>
      match smash_channels_e alloc rate threshold cs a1 with
      | .error e => .error e
      | .ok (rs, a2) => .ok (r :: rs, a2)

/-- `smash_amplitude` as an operation (audio.cpp:1520-1638): the initial
`out.copy(src)` and every in-loop allocation may fail; only the final
`swap` publishes the result. -/
def smash_amplitude_op (alloc : ℕ → Bool) (dst src : List (List ℚ)) (rate : ℕ)
    (threshold : ℚ) : Status × List (List ℚ) :=
  match tryAlloc alloc 0 with
  | .error e => (e, dst)
  | .ok a0 =>
    match smash_channels_e alloc rate threshold src a0 with
    | .error e => (e, dst)
    | .ok (rs, _) => (.ok, rs)

/-! ### Theorems -/

/-- Output positions of the `map`/`range` form of the embedded loops. -/
theorem getD_map_range {α : Type} (f : ℕ → α) {m j : ℕ} (h : j < m) (d : α) :
    ((List.range m).map f).getD j d = f j := by
  simp [List.getD_eq_getElem?_getD, List.getElem?_map, List.getElem?_range, h]

/-- The cubic profile `x²(3-2x)` is nonnegative on `[0,1]`. -/
theorem cubic_profile_nonneg (x : ℚ) (h0 : 0 ≤ x) (h1 : x ≤ 1) :
    0 ≤ x * x * (3 - 2 * x) := by
  have : (0:ℚ) ≤ 3 - 2 * x := by linarith [h1]
  positivity

/-- The cubic profile `x²(3-2x)` is at most `1` on `[0,1]`:
`1 - x²(3-2x) = (1-x)²(1+2x)`. -/
theorem cubic_profile_le_one (x : ℚ) (h0 : 0 ≤ x) (_h1 : x ≤ 1) :
    x * x * (3 - 2 * x) ≤ 1 := by
  nlinarith [sq_nonneg (1 - x), mul_nonneg (sq_nonneg (1 - x)) h0]

/-- The cubic profile is monotone on `[0,1]`:
`h(y) - h(x) = (y-x)(3(x+y) - 2(x²+xy+y²))` and the second factor is
nonnegative there. -/
theorem cubic_profile_mono (x y : ℚ) (hx0 : 0 ≤ x) (hy1 : y ≤ 1) (hxy : x ≤ y) :
    x * x * (3 - 2 * x) ≤ y * y * (3 - 2 * y) := by
  have hy0 : 0 ≤ y := le_trans hx0 hxy
  have hx1 : x ≤ 1 := le_trans hxy hy1
  have hxx : x * x ≤ x := by nlinarith
  have hyy : y * y ≤ y := by nlinarith
  have hxy2 : 2 * (x * y) ≤ x + y := by nlinarith [mul_nonneg hx0 hy0]
  have hfac : 0 ≤ 3 * (x + y) - 2 * (x * x + x * y + y * y) := by linarith
  nlinarith [mul_nonneg (sub_nonneg.2 hxy) hfac]

/-- C7: the cubic blend `interpolate(a,b,x) = a + (b-a)x²(3-2x)` hits `a`
at `x = 0` and `b` at `x = 1`, is monotone in `x` over `[0,1]` (toward
`b`), and never leaves the interval `[min a b, max a b]` — the gain
trajectory between two control points cannot overshoot its endpoints. -/
theorem interpolate_monotone_no_overshoot (a b x y : ℚ)
    (hx0 : 0 ≤ x) (hx1 : x ≤ 1) (hy1 : y ≤ 1) (hxy : x ≤ y) :
    interpolate a b 0 = a ∧ interpolate a b 1 = b ∧
    (a ≤ b → interpolate a b x ≤ interpolate a b y) ∧
    (b ≤ a → interpolate a b y ≤ interpolate a b x) ∧
    min a b ≤ interpolate a b x ∧ interpolate a b x ≤ max a b := by
  have hmono := cubic_profile_mono x y hx0 hy1 hxy
  have hh0 := cubic_profile_nonneg x hx0 hx1
  have hh1 := cubic_profile_le_one x hx0 hx1
  refine ⟨by simp [interpolate], by simp [interpolate]; ring, ?_, ?_, ?_, ?_⟩
  · intro hab
    have : 0 ≤ b - a := by linarith
    simp only [interpolate]
    nlinarith [mul_le_mul_of_nonneg_left hmono this]
  · intro hba
    have : 0 ≤ a - b := by linarith
    simp only [interpolate]
    nlinarith [mul_le_mul_of_nonneg_left hmono this]
  · rcases le_total a b with hab | hba
    · have : min a b = a := min_eq_left hab
      rw [this]
      simp only [interpolate]
      nlinarith [mul_le_mul_of_nonneg_right hh0 (sub_nonneg.2 hab)]
    · have : min a b = b := min_eq_right hba
      rw [this]
      simp only [interpolate]
      nlinarith [mul_le_mul_of_nonneg_right hh1 (sub_nonneg.2 hba)]
  · rcases le_total a b with hab | hba
    · have : max a b = b := max_eq_right hab
      rw [this]
      simp only [interpolate]
      nlinarith [mul_le_mul_of_nonneg_right hh1 (sub_nonneg.2 hab)]
    · have : max a b = a := max_eq_left hba
      rw [this]
      simp only [interpolate]
      nlinarith [mul_le_mul_of_nonneg_right hh0 (sub_nonneg.2 hba)]

/-- Witness for C7 at `a = 0`, `b = 1`, `x = 1/2`, `y = 1`. -/
theorem interpolate_monotone_no_overshoot_witness :
    min (0:ℚ) 1 ≤ interpolate 0 1 (1/2) ∧ interpolate 0 1 (1/2) ≤ max (0:ℚ) 1 :=
  ⟨(interpolate_monotone_no_overshoot 0 1 (1/2) 1 (by norm_num) (by norm_num)
      (by norm_num) (by norm_num)).2.2.2.2.1,
   (interpolate_monotone_no_overshoot 0 1 (1/2) 1 (by norm_num) (by norm_num)
      (by norm_num) (by norm_num)).2.2.2.2.2⟩

/-- C4 counterexample: the median routine does NOT return `3` on
`[1,2,3,4,5]`: its odd-count branch averages the elements at positions
`size/2` and `size/2 + 1` (audio.cpp:1186), giving `(3+4)/2 = 7/2`. -/
theorem median_value_five_ne_three : ¬ median_value [1, 2, 3, 4, 5] = 3 := by
  with_unfolding_all decide

/-- C4 amended: `median_value` returns `7/2` on `[1,2,3,4,5]` (odd counts
average the two elements straddling position `size/2`), `0` on the empty
collection, and the sole gain on a one-item collection. -/
theorem median_value_amended :
    median_value [1, 2, 3, 4, 5] = 7/2 ∧ median_value [] = 0 ∧
    ∀ x : ℚ, median_value [x] = x := by
  refine ⟨by with_unfolding_all decide, by with_unfolding_all decide, ?_⟩
  intro x
  simp [median_value, List.insertionSort, List.orderedInsert]

/-- Rescaling a buffer by a nonnegative factor rescales its `abs_max`. -/
theorem abs_max_map_mul (k : ℚ) (hk : 0 ≤ k) (l : List ℚ) :
    abs_max (l.map (fun x => x * k)) = abs_max l * k := by
  have aux : ∀ (l : List ℚ) (a : ℚ),
      List.foldl (fun acc x => max acc |x|) (a * k) (l.map (fun x => x * k)) =
        (List.foldl (fun acc x => max acc |x|) a l) * k := by
    intro l
    induction l with
    | nil => intro a; simp
    | cons x xs ih =>
      intro a
      have habs : |x * k| = |x| * k := by
        rw [abs_mul, abs_of_nonneg hk]
      have hmax : max (a * k) (|x| * k) = max a |x| * k :=
        (max_mul_of_nonneg _ _ hk).symm
      simpa [habs, hmax] using ih (max a |x|)
  simpa [abs_max] using aux l 0

/-- Rescaling every channel by a nonnegative factor rescales the global
peak. -/
theorem sample_peak_map_mul (k : ℚ) (hk : 0 ≤ k) (chs : List (List ℚ)) :
    sample_peak (chs.map (List.map (fun x => x * k))) = sample_peak chs * k := by
  have aux : ∀ (chs : List (List ℚ)) (a : ℚ),
      List.foldl (fun p c => max p (abs_max c)) (a * k) (chs.map (List.map (fun x => x * k))) =
        (List.foldl (fun p c => max p (abs_max c)) a chs) * k := by
    intro chs
    induction chs with
    | nil => intro a; simp
    | cons c cs ih =>
      intro a
      have hmax : max (a * k) (abs_max c * k) = max a (abs_max c) * k :=
        (max_mul_of_nonneg _ _ hk).symm
      simpa [abs_max_map_mul k hk c, hmax] using ih (max a (abs_max c))
  simpa [sample_peak] using aux chs 0

/-- C8: `normalize` with mode `NORM_NONE` never alters the buffer, and on
a non-silent sample (global peak at least `1e-6`) `normalize(·, 1,
NORM_ALWAYS)` rescales every channel by the single factor `1/peak`, after
which the global absolute maximum is exactly `1` (in exact arithmetic). -/
theorem normalize_none_and_always (chs : List (List ℚ)) (g : ℚ) :
    normalize chs g .NORM_NONE = chs ∧
    (EPS_PEAK ≤ sample_peak chs →
      normalize chs 1 .NORM_ALWAYS = chs.map (List.map (fun x => x * (1 / sample_peak chs))) ∧
      sample_peak (normalize chs 1 .NORM_ALWAYS) = 1) := by
  constructor
  · simp [normalize]
  · intro h
    have hpos : 0 < sample_peak chs := lt_of_lt_of_le (by norm_num [EPS_PEAK]) h
    have hne : sample_peak chs ≠ 0 := ne_of_gt hpos
    have hlt : ¬ sample_peak chs < EPS_PEAK := not_lt.2 h
    have heq : normalize chs 1 .NORM_ALWAYS =
        chs.map (List.map (fun x => x * (1 / sample_peak chs))) := by
      simp [normalize, hlt]
    refine ⟨heq, ?_⟩
    rw [heq, sample_peak_map_mul _ (by positivity) chs]
    field_simp

/-- Witness for C8 at the one-channel sample `[[1/2]]`. -/
theorem normalize_none_and_always_witness :
    sample_peak (normalize [[(1/2 : ℚ)]] 1 .NORM_ALWAYS) = 1 :=
  ((normalize_none_and_always [[(1/2 : ℚ)]] 0).2 (by with_unfolding_all decide)).2

/-- C10: for every channel `i` and every position `j` below
`min(rmsLength, srcLength)`, `apply_rms_balance` scales negative source
samples by the positive gain ratio (balance channel `5i+3`) and
non-negative ones by the negative gain ratio (channel `5i+4`), each
amplified by `M_SQRT2`. -/
theorem apply_rms_balance_pointwise (src rms : List (List ℚ)) (i j : ℕ)
    (hi : i < src.length) (hj : j < min (sample_length rms) (sample_length src)) :
    ((apply_rms_balance src rms).getD i []).getD j 0 =
      (if (src.getD i []).getD j 0 < 0
       then (src.getD i []).getD j 0 * ((rms.getD (5 * i + 3) []).getD j 0) * M_SQRT2
       else (src.getD i []).getD j 0 * ((rms.getD (5 * i + 4) []).getD j 0) * M_SQRT2) := by
  have h1 : (apply_rms_balance src rms).getD i [] =
      apply_rms_balance_channel (fun k => (src.getD i []).getD k 0)
        (fun k => (rms.getD (5 * i + 3) []).getD k 0)
        (fun k => (rms.getD (5 * i + 4) []).getD k 0)
        (min (sample_length rms) (sample_length src)) := by
    unfold apply_rms_balance
    exact getD_map_range _ hi _
  rw [h1]
  unfold apply_rms_balance_channel
  rw [getD_map_range _ hj]

/-- Witness for C10 at a two-channel balance sample and source `[[-1, 2]]`. -/
theorem apply_rms_balance_pointwise_witness :
    ((apply_rms_balance [[-1, 2]] [[0, 0], [0, 0], [0, 0], [3, 3], [4, 4]]).getD 0 []).getD 0 0 =
      (if (([[-1, 2]] : List (List ℚ)).getD 0 []).getD 0 0 < 0
       then (([[-1, 2]] : List (List ℚ)).getD 0 []).getD 0 0 *
          ((([[0, 0], [0, 0], [0, 0], [3, 3], [4, 4]] : List (List ℚ)).getD 3 []).getD 0 0) * M_SQRT2
       else (([[-1, 2]] : List (List ℚ)).getD 0 []).getD 0 0 *
          ((([[0, 0], [0, 0], [0, 0], [3, 3], [4, 4]] : List (List ℚ)).getD 4 []).getD 0 0) * M_SQRT2) :=
  apply_rms_balance_pointwise [[-1, 2]] [[0, 0], [0, 0], [0, 0], [3, 3], [4, 4]] 0 0
    (by decide) (by decide)

/-- The incremental accumulator of `estimate_rms` equals the direct sum of
squares over the trailing window `[j-W, j)` (truncated at `0`). -/
theorem rms_loop_fst (sq : ℚ → ℚ) (s : ℕ → ℚ) (W : ℕ) (j : ℕ) :
    (rms_loop sq s W j).1 = ∑ k in Finset.Ico (j - W) j, s k * s k := by
  induction j with
  | zero => simp [rms_loop]
  | succ j ih =>
    simp only [rms_loop]
    by_cases hW : W ≤ j
    · rw [if_pos hW, ih]
      have h1 : ∑ k in Finset.Ico (j - W) (j + 1), s k * s k
          = (∑ k in Finset.Ico (j - W) j, s k * s k) + s j * s j :=
        Finset.sum_Ico_succ_top (by omega) _
      have h2 : ∑ k in Finset.Ico (j - W) (j + 1), s k * s k
          = s (j - W) * s (j - W) + ∑ k in Finset.Ico (j - W + 1) (j + 1), s k * s k :=
        Finset.sum_eq_sum_Ico_succ_bot (by omega) _
      have h3 : j + 1 - W = j - W + 1 := by omega
      rw [h3]
      linarith
    · rw [if_neg hW, ih]
      have h0 : j - W = 0 := by omega
      have h0' : j + 1 - W = 0 := by omega
      have h1 : ∑ k in Finset.Ico 0 (j + 1), s k * s k
          = (∑ k in Finset.Ico 0 j, s k * s k) + s j * s j :=
        Finset.sum_Ico_succ_top (by omega) _
      rw [h0, h0', h1]

/-- The outputs of the `estimate_rms` loop, position by position, in terms
of direct window sums. -/
theorem rms_loop_snd (sq : ℚ → ℚ) (s : ℕ → ℚ) (W : ℕ) (j : ℕ) :
    (rms_loop sq s W j).2 = (List.range j).map
      (fun t => sq (max (∑ k in Finset.Ico (t + 1 - W) (t + 1), s k * s k) 0 * (1 / (W : ℚ)))) := by
  induction j with
  | zero => simp [rms_loop]
  | succ j ih =>
    have hfst := rms_loop_fst sq s W (j + 1)
    simp only [rms_loop] at hfst ⊢
    rw [List.range_succ, List.map_append, ← ih, hfst]
    simp

/-- C2: one channel of `estimate_rms` has length `N + W` and its value at
every position `j` is `sqrtf` of the mean of squares of the trailing `W`
(zero-padded) weighted samples ending at `j` — the incremental
subtract-old/add-new accumulator agrees with the direct windowed
computation, and the `lsp_max(rms, 0)` clamp is the identity because the
window sum is a sum of squares. -/
theorem estimate_rms_matches_window (sq : ℚ → ℚ) (src : List ℚ) (W : ℕ) (_hW : 1 ≤ W) :
    (estimate_rms_channel sq (padded src) (src.length + W) W).length = src.length + W ∧
    ∀ j < src.length + W,
      (estimate_rms_channel sq (padded src) (src.length + W) W).getD j 0
        = sq ((∑ k in Finset.Ico (j + 1 - W) (j + 1), padded src k * padded src k)
            * (1 / (W : ℚ))) := by
  constructor
  · unfold estimate_rms_channel
    rw [rms_loop_snd]
    simp
  · intro j hj
    unfold estimate_rms_channel
    rw [rms_loop_snd, getD_map_range _ hj]
    have hnn : (0:ℚ) ≤ ∑ k in Finset.Ico (j + 1 - W) (j + 1), padded src k * padded src k :=
      Finset.sum_nonneg fun k _ => mul_self_nonneg _
    rw [max_eq_left hnn]

/-- Witness for C2 at `src = [1, 2]`, `W = 1`, `sq = id`. -/
theorem estimate_rms_matches_window_witness :
    (estimate_rms_channel id (padded [1, 2]) ([1, 2].length + 1) 1).getD 1 0
      = id ((∑ k in Finset.Ico (1 + 1 - 1) (1 + 1), padded [1, 2] k * padded [1, 2] k)
          * (1 / ((1 : ℕ) : ℚ))) :=
  (estimate_rms_matches_window id [1, 2] 1 (by decide)).2 1 (by decide)

/-- Value of `List.map` streams at in-range positions. -/
theorem getD_map_lt {α β : Type} (f : α → β) (l : List α) (j : ℕ) (h : j < l.length)
    (d : α) (d2 : β) : (l.map f).getD j d2 = f (l.getD j d) := by
  have h2 : j < (l.map f).length := by simpa using h
  rw [List.getD_eq_getElem _ _ h2, List.getD_eq_getElem _ _ h, List.getElem_map]

/-- On an everywhere-non-negative input the balance estimator's negative
accumulator never moves from `0`, the negative RMS output stream is all
zeros, and — because the geometric-mean reference is then also `0` —
every positive gain entry is the float division `dv 0 (positive RMS
entry)`. -/
theorem balance_loop_nonneg (sq : ℚ → ℚ) (dv : ℚ → ℚ → ℚ) (hsq : sq 0 = 0) (s : ℕ → ℚ)
    (hs : ∀ k, 0 ≤ s k) (W : ℕ) (j : ℕ) :
    (balance_loop sq dv s W j).nrms = 0 ∧
    (balance_loop sq dv s W j).oNrms = List.replicate j 0 ∧
    (balance_loop sq dv s W j).oPrms.length = j ∧
    (balance_loop sq dv s W j).oPgain
      = (balance_loop sq dv s W j).oPrms.map (fun x => dv 0 x) := by
  induction j with
  | zero => simp [balance_loop]
  | succ j ih =>
    obtain ⟨h1, h2, h3, h4⟩ := ih
    have hsub : ¬ s (j - W) < 0 := not_lt.2 (hs (j - W))
    have hsc : ¬ s j < 0 := not_lt.2 (hs j)
    simp only [balance_loop]
    by_cases hW : W ≤ j <;>
      simp [hW, hsub, hsc, h1, h2, h3, h4, hsq, List.replicate_succ']

/-- All entries of a zero-extended all-non-negative buffer are
non-negative. -/
theorem padded_nonneg (src : List ℚ) (hsrc : ∀ x ∈ src, 0 ≤ x) (k : ℕ) :
    0 ≤ padded src k := by
  unfold padded
  rw [List.getD_eq_getElem?_getD]
  cases h : src[k]? with
  | none => simp
  | some v => simpa using hsrc v (List.getElem?_mem h)

/-- C5 counterexample: on the all-non-negative source `[1, 1]` with window
`1`, the positive gain stream `reference/positiveRMS` is `0` at position
`0`, not `1`.  (`sq = id` agrees with `sqrtf` at every value this run
reaches — `0` and `1` — and the division actually read at position `0`
is `0/1`, where the float division and the exact division instantiated
for `dv` agree; the instantiation at the unread zero-window positions
does not influence this entry.) -/
theorem balance_pgain_ne_one :
    (estimate_rms_balance_channel id (fun x y => x / y) (padded [1, 1])
        ([1, 1].length + 1) 1).oPgain.getD 0 0 ≠ 1 := by
  with_unfolding_all decide

/-- C5 amended: on an all-non-negative source the negative-branch RMS
stream is identically `0`, and the positive gain multiplier stream
`reference/positiveRMS` is `0` (not `1`) at every output position whose
emitted positive RMS is nonzero: the geometric-mean reference
`sqrt(prms·0)` is `0` there, so the ratio collapses to `0`.  (At
positions whose trailing window is all zero — e.g. the final `W`
positions of every run — the source computes the float division
`0.0f/0.0f`, i.e. `NaN`; `dv` is unconstrained there and the theorem
says nothing about those entries.) -/
theorem balance_nonneg_amended (sq : ℚ → ℚ) (dv : ℚ → ℚ → ℚ) (hsq : sq 0 = 0)
    (hdv : ∀ x y : ℚ, y ≠ 0 → dv x y = x / y) (src : List ℚ) (W : ℕ)
    (hsrc : ∀ x ∈ src, 0 ≤ x) :
    (estimate_rms_balance_channel sq dv (padded src) (src.length + W) W).oNrms
        = List.replicate (src.length + W) 0 ∧
    ∀ j < src.length + W,
      (estimate_rms_balance_channel sq dv (padded src) (src.length + W) W).oPrms.getD j 0
          ≠ 0 →
      (estimate_rms_balance_channel sq dv (padded src) (src.length + W) W).oPgain.getD j 0
          = 0 := by
  obtain ⟨_h1, h2, h3, h4⟩ := balance_loop_nonneg sq dv hsq (padded src)
    (padded_nonneg src hsrc) W (src.length + W)
  refine ⟨h2, ?_⟩
  intro j hj hne
  unfold estimate_rms_balance_channel at hne ⊢
  rw [h4, getD_map_lt _ _ j (by rw [h3]; exact hj) 0 0, hdv _ _ hne]
  exact zero_div _

/-- Witness for the amended C5 at `src = [1, 1]`, `W = 1`, `sq = id`,
`dv` exact division: position `0` has positive RMS `1 ≠ 0` and gain
entry `0`. -/
theorem balance_nonneg_amended_witness :
    (estimate_rms_balance_channel id (fun x y => x / y) (padded [1, 1])
        ([1, 1].length + 1) 1).oPgain.getD 0 0 = 0 :=
  (balance_nonneg_amended id (fun x y => x / y) rfl (fun _ _ _ => rfl) [1, 1] 1
      (by norm_num)).2 0 (by decide) (by with_unfolding_all decide)

set_option maxRecDepth 200000 in
/-- C1: concrete run showing the emitted region list does not tile
`[0, count)`.  On the two-period sawtooth `[1,2,1,-1,-2,-1,1,2,1,-1,-2,-1]`
with a zero reference RMS stream and global threshold `1`, `find_peaks`
succeeds and returns four regions with `(first, last, peak)` fields
`(0,3,1)`, `(2^64-1, 6, 4)`, `(3,9,7)`, `(6,12,10)` and gains `2`: the
fresh region opened after each cut takes `first` from the *previous* flip
(audio.cpp:946, before `last_flip` is updated at 956), so the second
region's `first` is `(size_t)(-1)` and regions `[3,9)` and `[6,12)`
overlap — the output does not satisfy the gap-free, overlap-free
ascending tiling of `[0, 12)`.  (All arithmetic in this run is exact in
floats as well.) -/
theorem find_peaks_failing_input :
    (find_peaks (fun _ => true) (padded [1, 2, 1, -1, -2, -1, 1, 2, 1, -1, -2, -1])
        (fun _ => 0) 1 12 []).1 = Status.ok ∧
    ((find_peaks (fun _ => true) (padded [1, 2, 1, -1, -2, -1, 1, 2, 1, -1, -2, -1])
        (fun _ => 0) 1 12 []).2.map (fun r => (r.first, r.last, r.peak)))
      = [(0, 3, 1), (18446744073709551615, 6, 4), (3, 9, 7), (6, 12, 10)] ∧
    ((find_peaks (fun _ => true) (padded [1, 2, 1, -1, -2, -1, 1, 2, 1, -1, -2, -1])
        (fun _ => 0) 1 12 []).2.map Region.gain) = [2, 2, 2, 2] ∧
    ¬ tiles ((find_peaks (fun _ => true) (padded [1, 2, 1, -1, -2, -1, 1, 2, 1, -1, -2, -1])
        (fun _ => 0) 1 12 []).2) 12 := by
  refine ⟨?_, ?_, ?_, ?_⟩
  · with_unfolding_all decide
  · with_unfolding_all decide
  · with_unfolding_all decide
  · with_unfolding_all decide

/-- The flush never touches the extrema list. -/
theorem smash_flush_peaks (step : ℕ) (st : DetSt) (j : ℕ) :
    (smash_flush step st j).peaks = st.peaks := by
  unfold smash_flush
  split <;> rfl

/-- The classification either leaves the extrema list alone or appends
the (nonzero) sample at `j`. -/
theorem smash_classify_peaks (s : ℕ → ℚ) (m : ℕ) (st1 : DetSt) (j : ℕ) :
    (smash_classify s m st1 j).peaks = st1.peaks ∨
    (s j ≠ 0 ∧ (smash_classify s m st1 j).peaks = st1.peaks ++ [⟨j, s j⟩]) := by
  unfold smash_classify
  dsimp only
  split_ifs
  all_goals
    first
      | exact Or.inl rfl
      | (refine Or.inr ⟨?_, rfl⟩
         first
           | exact ne_of_gt (show s j > 0 by linarith)
           | exact ne_of_lt (show s j < 0 by linarith))

/-- One detection step preserves the invariant, raising the index bound. -/
theorem detect_step_inv (step : ℕ) (s : ℕ → ℚ) (m j : ℕ) (st : DetSt)
    (h : detect_inv s j st) :
    detect_inv s (j + 1) (smash_detect_step step s m st j) := by
  obtain ⟨hpair, hmem⟩ := h
  unfold smash_detect_step
  have hfl := smash_flush_peaks step st j
  rcases smash_classify_peaks s m (smash_flush step st j) j with hcase | ⟨hne, hcase⟩
  · constructor
    · rw [hcase, hfl]; exact hpair
    · rw [hcase, hfl]
      intro p hp
      obtain ⟨h1, h2, h3⟩ := hmem p hp
      exact ⟨Nat.lt_succ_of_lt h1, h2, h3⟩
  · constructor
    · rw [hcase, hfl, List.pairwise_append]
      refine ⟨hpair, by simp, ?_⟩
      intro a ha b hb
      simp only [List.mem_singleton] at hb
      subst hb
      exact (hmem a ha).1
    · rw [hcase, hfl]
      intro p hp
      simp only [List.mem_append, List.mem_singleton] at hp
      rcases hp with hp | hp
      · obtain ⟨h1, h2, h3⟩ := hmem p hp
        exact ⟨Nat.lt_succ_of_lt h1, h2, h3⟩
      · subst hp
        exact ⟨Nat.lt_succ_self j, rfl, hne⟩

/-- The detection pass satisfies its invariant at every prefix length. -/
theorem smash_detect_inv (step : ℕ) (ch : List ℚ) (n : ℕ) :
    detect_inv (padded ch) n
      ((List.range n).foldl (smash_detect_step step (padded ch) ch.length) det_init) := by
  induction n with
  | zero => exact ⟨by simp [det_init], by simp [det_init]⟩
  | succ n ih =>
    rw [List.range_succ, List.foldl_append, List.foldl_cons, List.foldl_nil]
    exact detect_step_inv step (padded ch) ch.length n _ ih

/-- The gain walk never modifies a position left of its start index. -/
theorem smash_apply_untouched (th pA nA : ℚ) :
    ∀ (ps : List Peak) (idx : ℕ) (gain : ℚ) (buf : ℕ → ℚ) (k : ℕ),
      k < idx → ps.Pairwise (fun a b => a.index < b.index) →
      (∀ p ∈ ps, idx ≤ p.index) →
      smash_apply th pA nA ps idx gain buf k = buf k := by
  intro ps
  induction ps with
  | nil => intro idx gain buf k _ _ _; rfl
  | cons p ps ih =>
    intro idx gain buf k hk hpair hged
    rw [List.pairwise_cons] at hpair
    obtain ⟨hhead, htail⟩ := hpair
    have hpidx : idx ≤ p.index := hged p (List.mem_cons_self p ps)
    unfold smash_apply
    rw [ih p.index _ _ k (lt_of_lt_of_le hk hpidx) htail
      (fun q hq => le_of_lt (hhead q hq))]
    rw [if_neg]
    intro hcontr
    exact absurd hcontr.1 (not_le.2 hk)


/-- The cubic blend starts at its left endpoint. -/
theorem interpolate_zero (a b : ℚ) : interpolate a b 0 = a := by
  simp [interpolate]

/-- Value of the gain walk at a peak that has a successor in the walk
list: the peak sample is multiplied by exactly its target multiplier
(the first sample of the following span gets `interpolate(gain, egain, 0)
= gain`, and no earlier or later span touches it). -/
theorem smash_apply_at_peak (th pA nA : ℚ) :
    ∀ (l₁ : List Peak) (p q : Peak) (l₂ : List Peak) (idx : ℕ) (gain : ℚ) (buf : ℕ → ℚ),
      (l₁ ++ p :: q :: l₂).Pairwise (fun a b => a.index < b.index) →
      (∀ r ∈ l₁ ++ p :: q :: l₂, idx ≤ r.index) →
      smash_apply th pA nA (l₁ ++ p :: q :: l₂) idx gain buf p.index
        = buf p.index * smash_egain th pA nA p := by
  intro l₁
  induction l₁ with
  | nil =>
    intro p q l₂ idx gain buf hpair hge
    simp only [List.nil_append] at hpair hge ⊢
    rw [List.pairwise_cons] at hpair
    obtain ⟨hp_rest, hpair2⟩ := hpair
    rw [List.pairwise_cons] at hpair2
    obtain ⟨hq_rest, hpair3⟩ := hpair2
    have hpq : p.index < q.index := hp_rest q (List.mem_cons_self q l₂)
    have hidxp : idx ≤ p.index := hge p (List.mem_cons_self p (q :: l₂))
    simp only [smash_apply]
    rw [smash_apply_untouched th pA nA l₂ q.index _ _ p.index hpq hpair3
      (fun r hr => le_of_lt (hq_rest r hr))]
    rw [if_pos ⟨le_refl p.index, hpq⟩]
    rw [if_neg (fun h => lt_irrefl p.index h.2)]
    rw [Nat.sub_self]
    norm_num [interpolate_zero]
  | cons r l₁ ih =>
    intro p q l₂ idx gain buf hpair hge
    simp only [List.cons_append] at hpair hge ⊢
    rw [List.pairwise_cons] at hpair
    obtain ⟨hr_rest, hpair'⟩ := hpair
    have hpmem : p ∈ l₁ ++ p :: q :: l₂ :=
      List.mem_append_right l₁ (List.mem_cons_self p (q :: l₂))
    have hrp : r.index < p.index := hr_rest p hpmem
    simp only [smash_apply]
    rw [ih p q l₂ r.index _ _ hpair' (fun x hx => le_of_lt (hr_rest x hx))]
    rw [if_neg (fun h => absurd h.2 (not_lt.2 (le_of_lt hrp)))]

/-- The two branches of the target-multiplier computation. -/
theorem smash_egain_spec (th pA nA : ℚ) (p : Peak) :
    (th * |if 0 < p.gain then pA else nA| < |p.gain| →
        smash_egain th pA nA p = (if 0 < p.gain then pA else nA) * th / p.gain) ∧
    (¬ th * |if 0 < p.gain then pA else nA| < |p.gain| →
        smash_egain th pA nA p = 1) := by
  unfold smash_egain
  constructor <;> intro h <;> simp [h]

/-- C3: after `smash_amplitude` on a channel (sample rate at least 100 so
the block length `rate/100` is at least 1), every detected true local
extremum `p` whose magnitude exceeds `threshold` times the magnitude of
the matching-polarity median of block-dominant peaks has corrected value
exactly `median · threshold` (its target multiplier `(median ·
threshold)/gain` times its original value `gain`); every other detected
extremum keeps its original value (target multiplier `1`).  Exact
rational arithmetic stands in for the float tolerance of the claim. -/
theorem smash_amplitude_peak_targets (rate : ℕ) (_hrate : 100 ≤ rate) (threshold : ℚ)
    (ch : List ℚ) (p : Peak)
    (hp : p ∈ (smash_detect (rate / 100) ch).peaks) :
    (threshold * |smash_avg (rate / 100) ch p| < |p.gain| →
      (smash_channel rate threshold ch).getD p.index 0
        = smash_avg (rate / 100) ch p * threshold) ∧
    (¬ threshold * |smash_avg (rate / 100) ch p| < |p.gain| →
      (smash_channel rate threshold ch).getD p.index 0 = ch.getD p.index 0) := by
  obtain ⟨hpair, hmem⟩ := smash_detect_inv (rate / 100) ch ch.length
  rw [show (List.range ch.length).foldl
        (smash_detect_step (rate / 100) (padded ch) ch.length) det_init
      = smash_detect (rate / 100) ch from rfl] at hpair hmem
  obtain ⟨hidx, hgain, hne⟩ := hmem p hp
  obtain ⟨l₁, l₂, hsplit⟩ := List.append_of_mem hp
  obtain ⟨q, l₂', hq⟩ : ∃ q l₂', l₂ ++ [(⟨ch.length, 1⟩ : Peak)] = q :: l₂' := by
    cases l₂ with
    | nil => exact ⟨⟨ch.length, 1⟩, [], rfl⟩
    | cons a t => exact ⟨a, t ++ [⟨ch.length, 1⟩], by simp⟩
  have hfull2 : (smash_detect (rate / 100) ch).peaks ++ [(⟨ch.length, 1⟩ : Peak)]
      = l₁ ++ p :: q :: l₂' := by
    rw [hsplit, List.append_assoc, List.cons_append, hq]
  have hpairfull : ((smash_detect (rate / 100) ch).peaks ++ [(⟨ch.length, 1⟩ : Peak)]).Pairwise
      (fun a b => a.index < b.index) := by
    rw [List.pairwise_append]
    refine ⟨hpair, by simp, ?_⟩
    intro a ha b hb
    simp only [List.mem_singleton] at hb
    subst hb
    exact (hmem a ha).1
  have happly := smash_apply_at_peak threshold (smash_pavg (rate / 100) ch)
      (smash_navg (rate / 100) ch) l₁ p q l₂' 0 1 (padded ch)
      (hfull2 ▸ hpairfull) (fun r _ => Nat.zero_le _)
  have hchan : (smash_channel rate threshold ch).getD p.index 0
      = smash_apply threshold (smash_pavg (rate / 100) ch) (smash_navg (rate / 100) ch)
          ((smash_detect (rate / 100) ch).peaks ++ [⟨ch.length, 1⟩]) 0 1 (padded ch) p.index := by
    unfold smash_channel
    exact getD_map_range _ hidx _
  rw [hchan, hfull2, happly]
  have hespec := smash_egain_spec threshold (smash_pavg (rate / 100) ch)
      (smash_navg (rate / 100) ch) p
  have havg : (if 0 < p.gain then smash_pavg (rate / 100) ch else smash_navg (rate / 100) ch)
      = smash_avg (rate / 100) ch p := rfl
  rw [havg] at hespec
  constructor
  · intro hcond
    rw [hespec.1 hcond]
    have hbuf : padded ch p.index = p.gain := hgain.symm
    rw [hbuf, mul_comm, div_mul_cancel₀ _ hne]
  · intro hcond
    rw [hespec.2 hcond, mul_one]
    rfl

/-- Witness for C3 on `[1, 2, 1]` at rate `100`, threshold `2`: the lone
extremum `(1, 2)` is below `threshold · median = 4`, so it keeps its
original value. -/
theorem smash_amplitude_peak_targets_witness :
    (smash_channel 100 2 [1, 2, 1]).getD 1 0 = ([1, 2, 1] : List ℚ).getD 1 0 :=
  (smash_amplitude_peak_targets 100 (by decide) 2 [1, 2, 1] ⟨1, 2⟩
      (by with_unfolding_all decide)).2
    (by with_unfolding_all decide)

/-- C9: the guard of the look-ahead read is `j < m`, which is always true
inside the scan loop, so at the final loop position `j = m-1` the source
still reads `in[j+1] = in[m]`, one past the end of the channel: on the
one-sample channel `[1]` the guarded branch is taken at `j = 0` and the
`Option`-indexed access yields `none` — the claimed in-bounds property
fails. -/
theorem smash_look_ahead_oob :
    0 < ([(1 : ℚ)] : List ℚ).length ∧ smash_next_read [(1 : ℚ)] 0 = none := by
  constructor
  · decide
  · rfl

/-- C6: every exposed core operation is atomic with respect to its
destination: whenever it returns a non-success status (allocation
failure at any of its allocation sites, channel-count mismatch, bad
arguments), the destination sample / range list is returned exactly as
it was, with no partial writes — each source function builds its result
in locals and publishes it only by the final `swap`.  The region-wise
`apply_gain` performs no allocation and cannot fail, which the ninth
conjunct records. -/
theorem core_ops_atomic :
    (∀ alloc filt sq dst src W,
      (estimate_rms_op alloc filt sq dst src W).1 ≠ Status.ok →
        (estimate_rms_op alloc filt sq dst src W).2 = dst) ∧
    (∀ alloc filt dst src W,
      (estimate_average_op alloc filt dst src W).1 ≠ Status.ok →
        (estimate_average_op alloc filt dst src W).2 = dst) ∧
    (∀ alloc filt sq dst src W positive,
      (estimate_partial_rms_op alloc filt sq dst src W positive).1 ≠ Status.ok →
        (estimate_partial_rms_op alloc filt sq dst src W positive).2 = dst) ∧
    (∀ alloc filt sq dv dst src W,
      (estimate_rms_balance_op alloc filt sq dv dst src W).1 ≠ Status.ok →
        (estimate_rms_balance_op alloc filt sq dv dst src W).2 = dst) ∧
    (∀ alloc smooth filt dst src period,
      (estimate_envelope_op alloc smooth filt dst src period).1 ≠ Status.ok →
        (estimate_envelope_op alloc smooth filt dst src period).2 = dst) ∧
    (∀ alloc dst src rms offset,
      (calc_deviation_op alloc dst src rms offset).1 ≠ Status.ok →
        (calc_deviation_op alloc dst src rms offset).2 = dst) ∧
    (∀ alloc dst ref src,
      (calc_gain_adjust_op alloc dst ref src).1 ≠ Status.ok →
        (calc_gain_adjust_op alloc dst ref src).2 = dst) ∧
    (∀ alloc dst src gain,
      (apply_gain_op alloc dst src gain).1 ≠ Status.ok →
        (apply_gain_op alloc dst src gain).2 = dst) ∧
    (∀ buf ranges threshold count,
      (apply_gain_ranges_op buf ranges threshold count).1 = Status.ok) ∧
    (∀ alloc buf rms threshold count ranges,
      (find_peaks alloc buf rms threshold count ranges).1 ≠ Status.ok →
        (find_peaks alloc buf rms threshold count ranges).2 = ranges) ∧
    (∀ alloc dpGain dst gain src env thresh,
      (adjust_gain_op alloc dpGain dst gain src env thresh).1 ≠ Status.ok →
        (adjust_gain_op alloc dpGain dst gain src env thresh).2 = (dst, gain)) ∧
    (∀ alloc dst src rate threshold,
      (smash_amplitude_op alloc dst src rate threshold).1 ≠ Status.ok →
        (smash_amplitude_op alloc dst src rate threshold).2 = dst) := by
  refine ⟨?_, ?_, ?_, ?_, ?_, ?_, ?_, ?_, ?_, ?_, ?_, ?_⟩
  · intro alloc filt sq dst src W h
    unfold estimate_rms_op at h ⊢
    split_ifs at h ⊢ <;> simp_all
  · intro alloc filt dst src W h
    unfold estimate_average_op at h ⊢
    split_ifs at h ⊢ <;> simp_all
  · intro alloc filt sq dst src W positive h
    unfold estimate_partial_rms_op at h ⊢
    split_ifs at h ⊢ <;> simp_all
  · intro alloc filt sq dv dst src W h
    unfold estimate_rms_balance_op at h ⊢
    split_ifs at h ⊢ <;> simp_all
  · intro alloc smooth filt dst src period h
    unfold estimate_envelope_op at h ⊢
    split_ifs at h ⊢ <;> simp_all
  · intro alloc dst src rms offset h
    unfold calc_deviation_op at h ⊢
    split_ifs at h ⊢ <;> simp_all
  · intro alloc dst ref src h
    unfold calc_gain_adjust_op at h ⊢
    split_ifs at h ⊢ <;> simp_all
  · intro alloc dst src gain h
    unfold apply_gain_op at h ⊢
    split_ifs at h ⊢ <;> simp_all
  · intro buf ranges threshold count
    rfl
  · intro alloc buf rms threshold count ranges h
    unfold find_peaks at h ⊢
    cases hc : find_peaks_core alloc buf rms threshold count with
    | error e => simp [hc]
    | ok out => rw [hc] at h; exact absurd rfl h
  · intro alloc dpGain dst gain src env thresh h
    unfold adjust_gain_op at h ⊢
    split_ifs at h ⊢ <;> simp_all
  · intro alloc dst src rate threshold h
    unfold smash_amplitude_op at h ⊢
    cases h0 : tryAlloc alloc 0 with
    | error e => simp [h0]
    | ok a0 =>
      cases h1 : smash_channels_e alloc rate threshold src a0 with
      | error e => simp [h0, h1]
      | ok pr =>
        obtain ⟨rs, a⟩ := pr
        simp only [h0, h1] at h
        simp at h

/-- Witness for C6: with an always-failing allocator, `estimate_rms`
reports `noMem` and leaves the destination exactly as it was. -/
theorem core_ops_atomic_witness :
    (estimate_rms_op (fun _ => false) (fun _ _ => 0) id [[5]] [[1]] 2).2 = [[5]] :=
  core_ops_atomic.1 (fun _ => false) (fun _ _ => 0) id [[5]] [[1]] 2 (by decide)

/-- With an always-succeeding allocator one flush step of the fallible
detection agrees with the pure one. -/
theorem smash_flush_e_all (step : ℕ) (st : DetSt) (a j : ℕ) :
    ∃ a', smash_flush_e (fun _ => true) step (st, a) j
      = .ok (smash_flush step st j, a') := by
  unfold smash_flush_e
  dsimp only
  by_cases h : j % step = 0
  · rw [if_pos h]
    rcases Decidable.em (0 ≤ st.pos.gain) with h1 | h1 <;>
      rcases Decidable.em (st.neg.gain ≤ 0) with h2 | h2
    · exact ⟨a + 1 + 1, by simp [h1, h2, tryAlloc]⟩
    · exact ⟨a + 1, by simp [h1, h2, tryAlloc]⟩
    · exact ⟨a + 1, by simp [h1, h2, tryAlloc]⟩
    · exact ⟨a, by simp [h1, h2, tryAlloc]⟩
  · rw [if_neg h]
    exact ⟨a, rfl⟩

/-- With an always-succeeding allocator one classification step of the
fallible detection agrees with the pure one. -/
theorem smash_classify_e_all (s : ℕ → ℚ) (m : ℕ) (st1 : DetSt) (a j : ℕ) :
    ∃ a', smash_classify_e (fun _ => true) s m (st1, a) j
      = .ok (smash_classify s m st1 j, a') := by
  unfold smash_classify_e
  dsimp only
  split_ifs <;>
    first
      | exact ⟨a, rfl⟩
      | (refine ⟨a + 1, ?_⟩
         simp [tryAlloc])

/-- With an always-succeeding allocator one full detection step agrees
with the pure one. -/
theorem smash_detect_step_e_all (step : ℕ) (s : ℕ → ℚ) (m : ℕ) (st : DetSt) (a j : ℕ) :
    ∃ a', smash_detect_step_e (fun _ => true) step s m (st, a) j
      = .ok (smash_detect_step step s m st j, a') := by
  obtain ⟨a1, h1⟩ := smash_flush_e_all step st a j
  obtain ⟨a2, h2⟩ := smash_classify_e_all s m (smash_flush step st j) a1 j
  refine ⟨a2, ?_⟩
  unfold smash_detect_step_e smash_detect_step
  rw [h1]
  exact h2

/-- With an always-succeeding allocator the whole detection fold agrees
with the pure fold. -/
theorem smash_detect_fold_e_all (step : ℕ) (s : ℕ → ℚ) (m : ℕ) :
    ∀ (l : List ℕ) (st : DetSt) (a : ℕ),
      ∃ a', l.foldlM (smash_detect_step_e (fun _ => true) step s m) (st, a)
        = .ok (l.foldl (smash_detect_step step s m) st, a') := by
  intro l
  induction l with
  | nil => intro st a; exact ⟨a, rfl⟩
  | cons x xs ih =>
    intro st a
    obtain ⟨a1, h1⟩ := smash_detect_step_e_all step s m st a x
    obtain ⟨a2, h2⟩ := ih (smash_detect_step step s m st x) a1
    refine ⟨a2, ?_⟩
    rw [List.foldlM_cons, h1]
    simpa using h2

/-- With an always-succeeding allocator one fallible channel of
`smash_amplitude` computes exactly the pure `smash_channel`. -/
theorem smash_channel_e_all (rate : ℕ) (threshold : ℚ) (ch : List ℚ) (a0 : ℕ) :
    ∃ a', smash_channel_e (fun _ => true) a0 rate threshold ch
      = .ok (smash_channel rate threshold ch, a') := by
  obtain ⟨a1, h1⟩ := smash_detect_fold_e_all (rate / 100) (padded ch) ch.length
    (List.range ch.length) det_init a0
  refine ⟨a1 + 1 + 1 + 1, ?_⟩
  unfold smash_channel_e smash_channel smash_pavg smash_navg smash_detect
  dsimp only
  rw [h1]
  rfl

/-- With an always-succeeding allocator the channel fold of
`smash_amplitude` computes the pure per-channel map. -/
theorem smash_channels_e_all (rate : ℕ) (threshold : ℚ) :
    ∀ (src : List (List ℚ)) (a : ℕ),
      ∃ a', smash_channels_e (fun _ => true) rate threshold src a
        = .ok (src.map (smash_channel rate threshold), a') := by
  intro src
  induction src with
  | nil => intro a; exact ⟨a, rfl⟩
  | cons c cs ih =>
    intro a
    obtain ⟨a1, h1⟩ := smash_channel_e_all rate threshold c a
    obtain ⟨a2, h2⟩ := ih a1
    refine ⟨a2, ?_⟩
    unfold smash_channels_e
    rw [h1]
    dsimp only
    rw [h2]
    rfl

/-- Sanity: when no allocation fails, the fallible `smash_amplitude`
operation succeeds and produces exactly the pure `smash_amplitude`
used by the C3 theorems. -/
theorem smash_amplitude_op_all (dst src : List (List ℚ)) (rate : ℕ) (threshold : ℚ) :
    smash_amplitude_op (fun _ => true) dst src rate threshold
      = (Status.ok, smash_amplitude rate threshold src) := by
  obtain ⟨a', h⟩ := smash_channels_e_all rate threshold src 1
  unfold smash_amplitude_op
  rw [show tryAlloc (fun _ => true) 0 = .ok 1 from rfl]
  dsimp only
  rw [h]
  rfl

end SpikeBender
